import Mathlib

/-!
Verification of the pure core of the Speech pronunciation-practice
application (`src/app.py` and `src/ai_app.py`).

Python strings are modelled as `List Char` restricted to their ASCII
fragment: `str.lower`, the regex character class `[^a-z0-9\s]` and the
whitespace notions of `str.split`/`re.\s` are translated at the ASCII
code points they touch.  Python floats are modelled as exact rationals
(`ℚ`), with `round(x, 2)` translated as exact round-half-to-even on
rationals.  Python dicts keyed by strings are modelled as total
functions with a default, and the nondeterministic inputs of the code
(uuids, clock readings, network responses) are passed as explicit
parameters.
-/

namespace Speech

/-- The ASCII characters matched by `\s` in a Python `str` regex and by
`str.split()` with no separator: TAB..CR (9..13), FS..US (28..31) and
the space (32). -/
def pyWhitespace (c : Char) : Bool :=
  (9 ≤ c.toNat && c.toNat ≤ 13) || (28 ≤ c.toNat && c.toNat ≤ 31) || c.toNat = 32

/-- Python `str.lower` on the ASCII fragment: map A-Z to a-z, leave the rest. -/
def pyLower (c : Char) : Char :=
  if 'A' ≤ c ∧ c ≤ 'Z' then Char.ofNat (c.toNat + 32) else c

/-- Membership in the regex character class `[a-z0-9\s]` of
`normalize_text` (src/app.py line 443). -/
def keepClass (c : Char) : Bool :=
  ('a' ≤ c && c ≤ 'z') || ('0' ≤ c && c ≤ '9') || pyWhitespace c

/-- One character of `re.sub(r"[^a-z0-9\s]", " ", ·)`: the class is a
single-character alternative, so the substitution acts pointwise. -/
def subChar (c : Char) : Char :=
  if keepClass c then c else ' '

/-- Accumulator form of Python `str.split()` (no separator): split on
runs of whitespace and discard empty pieces.  `acc` holds the reversed
characters of the word currently being read. -/
def pySplitAux : List Char → List Char → List (List Char)
  | [], acc => if acc = [] then [] else [acc.reverse]
  | c :: rest, acc =>
    if pyWhitespace c then
      if acc = [] then pySplitAux rest [] else acc.reverse :: pySplitAux rest []
    else
      pySplitAux rest (c :: acc)

/-- Python `str.split()` with no separator. -/
def pySplit (s : List Char) : List (List Char) :=
  pySplitAux s []

/-- Function `normalize_text` (src/app.py lines 442-444):
`cleaned = re.sub(r"[^a-z0-9\s]", " ", value.lower())` followed by
`" ".join(cleaned.split())`. -/
def normalize_text (value : List Char) : List Char :=
  let cleaned := (value.map pyLower).map subChar
  List.intercalate [' '] (pySplit cleaned)

/-- The C2 claim read literally: lowercase, *strip* (delete) every
character outside `[a-z0-9\s]`, then collapse whitespace. -/
def normalizeSpecStrip (value : List Char) : List Char :=
  List.intercalate [' '] (pySplit ((value.map pyLower).filter keepClass))

/-- An independent rendering of "collapse whitespace to single spaces
between tokens, with no leading or trailing whitespace", written as a
one-pass scanner.  `started` records whether a word has been emitted,
`pend` whether a separating space is owed before the next word. -/
def collapseGo : List Char → Bool → Bool → List Char
  | [], _, _ => []
  | c :: rest, started, pend =>
    if pyWhitespace c then collapseGo rest started started
    else (if pend then [' '] else []) ++ c :: collapseGo rest true false

/-- The amended C2 claim: lowercase, replace each character outside
`[a-z0-9\s]` by a space, then collapse whitespace. -/
def normalizeSpecAmended (value : List Char) : List Char :=
  collapseGo ((value.map pyLower).map subChar) false false

/-- Concatenation of a list of words, a single space before each one
(the tail of a space-intercalated join). -/
def joinRest (ws : List (List Char)) : List Char :=
  ws.foldr (fun w r => ' ' :: (w ++ r)) []

/-- No character of the word is Python whitespace. -/
def noWs (w : List Char) : Prop :=
  ∀ c ∈ w, pyWhitespace c = false

instance (w : List Char) : Decidable (noWs w) :=
  inferInstanceAs (Decidable (∀ c ∈ w, pyWhitespace c = false))

/-- The text `synthesize_conversational` (src/ai_app.py lines 225-228)
hands to the text-to-speech engine:
`words = text.split(); if len(words) > 150: text = " ".join(words[:150]) + "..."`. -/
def synthesizeText (text : List Char) : List Char :=
  let words := pySplit text
  if 150 < words.length then
    List.intercalate [' '] (words.take 150) ++ ('.' :: '.' :: '.' :: [])
  else text

/-- One conversation turn, as the session history stores it
(`{"author": ..., "text": ...}`). -/
structure Turn where
  author : String
  text : List Char
deriving DecidableEq

/-- Word count `len((entry.get("text") or "").split())` of one history entry. -/
def wordCount (t : Turn) : Nat :=
  (pySplit t.text).length

/-- Total word count of a list of turns. -/
def sumWords (l : List Turn) : Nat :=
  (l.map wordCount).sum

/-- The loop of `_truncate_history` (src/ai_app.py lines 233-242): walk
the messages newest-first, stop before an entry that would push the
running total over 3000 words unless nothing has been kept yet, and
return the kept entries oldest-first. -/
def truncGo : List Turn → Nat → List Turn → List Turn
  | [], _, trimmed => trimmed.reverse
  | e :: rest, total, trimmed =>
    if 3000 < total + wordCount e ∧ trimmed ≠ [] then trimmed.reverse
    else truncGo rest (total + wordCount e) (trimmed ++ [e])

/-- Function `_truncate_history` (src/ai_app.py lines 233-242). -/
def _truncate_history (messages : List Turn) : List Turn :=
  truncGo messages.reverse 0 []

/-- Python `str.strip()` on the ASCII fragment: drop leading and
trailing whitespace. -/
def pyStrip (s : List Char) : List Char :=
  ((s.dropWhile pyWhitespace).reverse.dropWhile pyWhitespace).reverse

/-- Python `os.path.basename` on POSIX: the part after the last `'/'`. -/
def basename (p : List Char) : List Char :=
  (p.reverse.takeWhile (fun c => ¬ c = '/')).reverse

/-- Check `filename.endswith('.mp3')`. -/
def endsWithMp3 (s : List Char) : Bool :=
  List.isSuffixOf ('.' :: 'm' :: 'p' :: '3' :: []) s

/-- Outcome of `cleanup_audio`'s validation: an HTTP 400 rejection, or
deletion (if present) of the named file in the audio folder. -/
inductive CleanupResult where
  | badRequest : CleanupResult
  | deleteIfExists : List Char → CleanupResult
deriving DecidableEq

/-- The pure validation logic of `cleanup_audio` (src/ai_app.py lines
150-157): `original = (payload.get("filename") or "").strip()`, empty →
400; `filename = os.path.basename(original)`, and if
`filename != original or not filename.endswith('.mp3')` → 400; else the
file named `filename` is unlinked if it exists. -/
def cleanup_audio (filenameField : Option (List Char)) : CleanupResult :=
  let original := pyStrip (filenameField.getD [])
  if original = [] then .badRequest
  else
    let filename := basename original
    if filename ≠ original ∨ endsWithMp3 filename = false then .badRequest
    else .deleteIfExists filename

/-- A practice content item (`{"id": ..., "text": ...}`) as
`save_progress_entry` reads it via `content.get`. -/
structure ContentItem where
  id : Option Nat
  text : Option String
deriving DecidableEq

/-- One progress entry as built by `save_progress_entry`
(src/app.py lines 281-289); `created_at` is an abstract timestamp. -/
structure ProgressEntry where
  id : String
  sentence_id : Option Nat
  content_type : String
  target : Option String
  transcript : String
  score : ℚ
  created_at : Nat
deriving DecidableEq

/-- The entry dict built by `save_progress_entry`; the uuid and the
clock reading are passed in explicitly. -/
def mkProgressEntry (content : ContentItem) (transcript : String) (score : ℚ)
    (content_type : String) (newId : String) (now : Nat) : ProgressEntry :=
  { id := newId, sentence_id := content.id, content_type := content_type,
    target := content.text, transcript := transcript, score := score,
    created_at := now }

/-- Cache `PROGRESS_CACHE` as a total map from user id to that user's history
list (a missing key reads as `[]`, matching `setdefault(user_id, [])`). -/
abbrev ProgressCache := String → List ProgressEntry

/-- The in-memory effect of `save_progress_entry` (src/app.py lines
277-301): no-op on an empty user id; otherwise append the new entry to
the user's history and, when the history exceeds 100 entries, keep only
the last 100 (`del history[:-100]`).  The Firestore write is an external
best-effort side effect with no bearing on the cache. -/
def save_progress_entry (cache : ProgressCache) (user_id : String)
    (content : ContentItem) (transcript : String) (score : ℚ)
    (content_type : String) (newId : String) (now : Nat) : ProgressCache :=
  if user_id = "" then cache
  else
    let entry := mkProgressEntry content transcript score content_type newId now
    let history := cache user_id ++ [entry]
    let history := if 100 < history.length then history.drop (history.length - 100) else history
    fun u => if u = user_id then history else cache u

/-- The content of the first Gemini candidate, as the parser inspects
it: a dict with a direct `"text"` key, a dict without one (whose
`"parts"` list carries optional `"text"` fields), or a non-dict value
(kept as its `str()` rendering). -/
inductive GContent where
  | textDict : String → GContent
  | partsDict : List (Option String) → GContent
  | nonDict : String → GContent
deriving DecidableEq

/-- One element of the response's `"candidates"` list. -/
structure GCandidate where
  content : GContent
deriving DecidableEq

/-- A parsed Gemini JSON body: `data.get("candidates") or []` (a missing
or null field reads as `[]`). -/
structure GResponse where
  candidates : List GCandidate
deriving DecidableEq

/-- The text extracted from a candidate's content (src/ai_app.py lines
197-201). -/
def contentText : GContent → String
  | .textDict t => t
  | .partsDict parts => String.join (parts.map (fun p => p.getD ""))
  | .nonDict s => s

/-- Response handling of one attempt (src/ai_app.py lines 193-201): no
candidates raises `RuntimeError("No response from Gemini API")`, else
the first candidate's content is rendered to text. -/
def extractText (r : GResponse) : Except String String :=
  match r.candidates with
  | [] => .error "No response from Gemini API"
  | c :: _ => .ok (contentText c.content)

/-- What one attempt of the `requests.post` + `raise_for_status` +
`json()` sequence produces: an `HTTPError` carrying its response's
status code (if any), some other transient exception (tagged by an
opaque id), or a parsed response body. -/
inductive AttemptResult where
  | httpError : Option Nat → AttemptResult
  | transient : Nat → AttemptResult
  | response : GResponse → AttemptResult
deriving DecidableEq

/-- The exception `call_gemini_api` ends with when it fails. -/
inductive CallError where
  | httpErr : Option Nat → CallError
  | noCandidates : CallError
  | transientErr : Nat → CallError
  | exhausted : CallError
deriving DecidableEq

/-- The retry loop of `call_gemini_api` (src/ai_app.py lines 188-218)
over the remaining attempt numbers.  An `HTTPError` whose status is 503
with attempts remaining, any other transient exception with attempts
remaining, and the no-candidates `RuntimeError` (caught by the generic
`except Exception`) sleep `backoff * 2 ** (attempt - 1)` and continue;
otherwise the error is raised.  The first component records the sleeps
in order.  An exhausted empty attempt list (only reachable when
`retries ≤ 0`) is the final `RuntimeError("Gemini API call failed")`. -/
def callLoop (outcomes : Nat → AttemptResult) (retries : Nat) (backoff : ℚ) :
    List Nat → List ℚ × Except CallError String
  | [] => ([], .error .exhausted)
  | attempt :: rest =>
    match outcomes attempt with
    | .response r =>
      match extractText r with
      | .ok s => ([], .ok s)
      | .error _ =>
        if attempt < retries then
          let p := callLoop outcomes retries backoff rest
          (backoff * 2 ^ (attempt - 1) :: p.1, p.2)
        else ([], .error .noCandidates)
    | .httpError st =>
      if st = some 503 ∧ attempt < retries then
        let p := callLoop outcomes retries backoff rest
        (backoff * 2 ^ (attempt - 1) :: p.1, p.2)
      else ([], .error (.httpErr st))
    | .transient e =>
      if attempt < retries then
        let p := callLoop outcomes retries backoff rest
        (backoff * 2 ^ (attempt - 1) :: p.1, p.2)
      else ([], .error (.transientErr e))

/-- Function `call_gemini_api` (src/ai_app.py lines 188-218) given the outcome of
each attempt: run the loop `for attempt in range(1, retries + 1)`. -/
def call_gemini_api (outcomes : Nat → AttemptResult) (retries : Nat) (backoff : ℚ) :
    List ℚ × Except CallError String :=
  callLoop outcomes retries backoff (List.range' 1 retries)

/-- A concrete successful response used by witnesses. -/
def demoResponse : GResponse :=
  ⟨[⟨.textDict "ok"⟩]⟩

/-- Two 503s followed by a success, used by witnesses. -/
def demoOutcomes : Nat → AttemptResult :=
  fun n => if n ≤ 2 then .httpError (some 503) else .response demoResponse

/-! Function `calculate_similarity` calls
`difflib.SequenceMatcher(None, a, b).ratio()`, so the matcher is
embedded below: the `b2j` occurrence index with the autojunk purge of
popular elements, the `find_longest_match` dynamic program with its
extension loops, and the total matched size summed over
`get_matching_blocks`'s recursive splitting.  `isjunk` is `None`, so
`self.bjunk` is empty: the junk guards `not isbjunk(...)` in the first
two extension loops are always true and the last two extension loops
(extend by junk) never move, hence they are omitted. -/

/-- Indexing with an irrelevant default (every use is in range). -/
def getC (l : List Char) (i : Nat) : Char :=
  l.getD i ' '

/-- Number of occurrences of `c` in `b`. -/
def countIn (b : List Char) (c : Char) : Nat :=
  (b.filter (fun d => d = c)).length

/-- difflib's autojunk rule in `__chain_b`: with `len(b) >= 200`, an
element seen more than `len(b) // 100 + 1` times is popular and its
entry is deleted from `b2j`. -/
def isPopular (b : List Char) (c : Char) : Bool :=
  (200 ≤ b.length) && (b.length / 100 + 1 < countIn b c)

/-- Index `self.b2j[c]`: the ascending list of positions of `c` in `b`, empty
when the element was purged as popular. -/
def b2j (b : List Char) (c : Char) : List Nat :=
  if isPopular b c then []
  else (List.range b.length).filter (fun j => getC b j = c)

/-- The inner loop of `find_longest_match` at row `i`: for each `j`
in the (ascending) window of `b2j[a[i]]`, set
`k = newj2len[j] = j2len.get(j-1, 0) + 1` and record a new best when
`k > bestsize`.  The `j < blo: continue` / `j >= bhi: break` steps of
the Python loop are the window filter applied in `flmRow` (the `b2j`
list is ascending, so breaking equals filtering). -/
def flmInner (i : Nat) (j2 : Nat → Nat) :
    List Nat → (Nat × Nat × Nat) → (Nat → Nat) → ((Nat × Nat × Nat) × (Nat → Nat))
  | [], best, newj2 => (best, newj2)
  | j :: js, best, newj2 =>
    let k := (if j = 0 then 0 else j2 (j - 1)) + 1
    let newj2' := fun x => if x = j then k else newj2 x
    let best' := if best.2.2 < k then (i + 1 - k, j + 1 - k, k) else best
    flmInner i j2 js best' newj2'

/-- One row of the `find_longest_match` dynamic program: run the inner
loop over the window of `b2j[a[i]]`, starting from a fresh `newj2len`,
and replace `j2len` by it. -/
def flmRow (a b : List Char) (blo bhi : Nat)
    (st : (Nat × Nat × Nat) × (Nat → Nat)) (i : Nat) : (Nat × Nat × Nat) × (Nat → Nat) :=
  let js := (b2j b (getC a i)).filter (fun j => blo ≤ j && j < bhi)
  flmInner i st.2 js st.1 (fun _ => 0)

/-- The dynamic-program phase of `find_longest_match`: fold the rows
`i = alo, ..., ahi-1` from `besti, bestj, bestsize = alo, blo, 0` and an
empty `j2len`. -/
def flmDP (a b : List Char) (alo ahi blo bhi : Nat) : Nat × Nat × Nat :=
  ((List.range' alo (ahi - alo)).foldl (flmRow a b blo bhi) ((alo, blo, 0), fun _ => 0)).1

/-- First extension loop: while `besti > alo and bestj > blo and
a[besti-1] == b[bestj-1]`, grow the block leftwards.  The fuel is an
upper bound on the number of iterations (each one decreases `besti`). -/
def extendLo (a b : List Char) (alo blo : Nat) : Nat → Nat × Nat × Nat → Nat × Nat × Nat
  | 0, st => st
  | fuel + 1, (bi, bj, bs) =>
    if alo < bi ∧ blo < bj ∧ getC a (bi - 1) = getC b (bj - 1) then
      extendLo a b alo blo fuel (bi - 1, bj - 1, bs + 1)
    else (bi, bj, bs)

/-- Second extension loop: while `besti+bestsize < ahi and
bestj+bestsize < bhi and a[besti+bestsize] == b[bestj+bestsize]`, grow
the block rightwards.  The fuel bounds the iterations (each one
increases `besti + bestsize`, which stays `≤ ahi`). -/
def extendHi (a b : List Char) (ahi bhi : Nat) : Nat → Nat × Nat × Nat → Nat × Nat × Nat
  | 0, st => st
  | fuel + 1, (bi, bj, bs) =>
    if bi + bs < ahi ∧ bj + bs < bhi ∧ getC a (bi + bs) = getC b (bj + bs) then
      extendHi a b ahi bhi fuel (bi, bj, bs + 1)
    else (bi, bj, bs)

/-- Method `find_longest_match(alo, ahi, blo, bhi)` with `isjunk = None`: the
dynamic program, then the two (non-junk) extension loops.  `besti` fuels
the left loop (it ends when `besti` hits `alo ≥ 0`) and `ahi` the right
one (it ends when `besti + bestsize` hits `ahi`). -/
def find_longest_match (a b : List Char) (alo ahi blo bhi : Nat) : Nat × Nat × Nat :=
  let dp := flmDP a b alo ahi blo bhi
  let e1 := extendLo a b alo blo dp.1 dp
  extendHi a b ahi bhi ahi e1

/-- Total size of the matching blocks of `get_matching_blocks` on the
window `[alo, ahi) × [blo, bhi)`: the queue-based splitting summed
recursively (block order and the merging of adjacent blocks do not
change the total).  The fuel dominates the recursion depth: every
recursive call strictly shrinks `ahi - alo`, so any fuel beyond
`a.length` is enough at the top window. -/
def matchTotalF (a b : List Char) : Nat → Nat → Nat → Nat → Nat → Nat
  | 0, _, _, _, _ => 0
  | fuel + 1, alo, ahi, blo, bhi =>
    let r := find_longest_match a b alo ahi blo bhi
    if r.2.2 = 0 then 0
    else
      matchTotalF a b fuel alo r.1 blo r.2.1 + r.2.2 +
        matchTotalF a b fuel (r.1 + r.2.2) ahi (r.2.1 + r.2.2) bhi

/-- The matched total over the whole sequences. -/
def matchTotal (a b : List Char) : Nat :=
  matchTotalF a b (a.length + b.length + 1) 0 a.length 0 b.length

/-- Ratio `SequenceMatcher(None, a, b).ratio() = 2.0 * matches / (la + lb)`,
on exact rationals. -/
def smRatio (a b : List Char) : ℚ :=
  2 * (matchTotal a b : ℚ) / ((a.length : ℚ) + (b.length : ℚ))

/-- Python `round` to an integer on exact rationals: round half to
even. -/
def roundHalfEven (q : ℚ) : ℤ :=
  let f := ⌊q⌋
  if q - (f : ℚ) < 1 / 2 then f
  else if 1 / 2 < q - (f : ℚ) then f + 1
  else if f % 2 = 0 then f else f + 1

/-- Python `round(x, 2)` on exact rationals. -/
def round2 (q : ℚ) : ℚ :=
  (roundHalfEven (q * 100) : ℚ) / 100

/-- Function `calculate_similarity` (src/app.py lines 447-454): normalize both
strings, return `0.0` when either normalization is falsy (empty), else
the sequence-matching ratio scaled to 0-100 and rounded to 2 decimal
places. -/
def calculate_similarity (reference attempt : List Char) : ℚ :=
  let reference_normalized := normalize_text reference
  let attempt_normalized := normalize_text attempt
  if reference_normalized = [] ∨ attempt_normalized = [] then 0
  else round2 (smRatio reference_normalized attempt_normalized * 100)

/-- Invariant of the `find_longest_match` dynamic program after `m` rows
of the window starting at `alo`: the best block starts inside the
window, ends within the processed rows on the `a` side and within `bhi`
on the `b` side, and every `j2len` entry is at most `m` and fits between
`blo` and its own position. -/
def flmInv (alo blo bhi m : Nat) (st : (Nat × Nat × Nat) × (Nat → Nat)) : Prop :=
  alo ≤ st.1.1 ∧ blo ≤ st.1.2.1 ∧ st.1.1 + st.1.2.2 ≤ alo + m ∧
    st.1.2.1 + st.1.2.2 ≤ bhi ∧
    ∀ x, st.2 x ≤ m ∧ (st.2 x ≠ 0 → blo ≤ x ∧ st.2 x ≤ x + 1 - blo)

/-- For the self-comparison analysis (`b = a`, full window): cell
`(i, x)` of the dynamic program is live when `x` is a position of
`a[i]`'s (unpurged) occurrence list. -/
def cellOk (a : List Char) (i x : Nat) : Bool :=
  decide (x < a.length) && decide (getC a x = getC a i) && ! isPopular a (getC a i)

/-- The `k` value the dynamic program computes at cell `(i, x)` when
comparing `a` against itself over the full window (0 when the cell is
not live). -/
def cellRun (a : List Char) : Nat → Nat → Nat
  | 0, x => if cellOk a 0 x then 1 else 0
  | i + 1, 0 => if cellOk a (i + 1) 0 then 1 else 0
  | i + 1, x + 1 => if cellOk a (i + 1) (x + 1) then cellRun a i x + 1 else 0

/-- What `j2len` holds when row `i` of the self-comparison dynamic
program begins: nothing before the first row, row `i - 1`'s runs
afterwards. -/
def prevRowFun (a : List Char) : Nat → Nat → Nat
  | 0, _ => 0
  | i + 1, x => cellRun a i x

end Speech

namespace Speech

theorem intercalate_space_nil : List.intercalate [' '] ([] : List (List Char)) = [] := by
  simp [List.intercalate]

theorem joinRest_nil : joinRest ([] : List (List Char)) = [] := rfl

theorem joinRest_cons (w : List Char) (ws : List (List Char)) :
    joinRest (w :: ws) = ' ' :: (w ++ joinRest ws) := rfl

theorem intercalate_space_cons (w : List Char) (ws : List (List Char)) :
    List.intercalate [' '] (w :: ws) = w ++ joinRest ws := by
  induction ws generalizing w with
  | nil => simp [List.intercalate, joinRest]
  | cons v vs ih =>
    have h := ih v
    simp only [List.intercalate, List.intersperse, List.flatten] at h ⊢
    simp [joinRest] at h ⊢
    simp [h]

theorem splitCollapseAll : ∀ s : List Char,
    (List.intercalate [' '] (pySplit s) = collapseGo s false false) ∧
    (joinRest (pySplit s) = collapseGo s true true) ∧
    (∀ acc : List Char, acc ≠ [] →
      List.intercalate [' '] (pySplitAux s acc) = acc.reverse ++ collapseGo s true false) ∧
    (∀ acc : List Char, acc ≠ [] →
      joinRest (pySplitAux s acc) = ' ' :: (acc.reverse ++ collapseGo s true false)) := by
  intro s
  induction s with
  | nil =>
    refine ⟨?_, ?_, ?_, ?_⟩
    · simp [pySplit, pySplitAux, collapseGo, intercalate_space_nil]
    · simp [pySplit, pySplitAux, collapseGo, joinRest]
    · intro acc hacc
      simp [pySplitAux, hacc, collapseGo, intercalate_space_cons, joinRest]
    · intro acc hacc
      simp [pySplitAux, hacc, collapseGo, joinRest]
  | cons c rest ih =>
    obtain ⟨ihA, ihB, ihC, ihD⟩ := ih
    by_cases hc : pyWhitespace c
    · refine ⟨?_, ?_, ?_, ?_⟩
      · simp [pySplit, pySplitAux, hc, collapseGo]
        simpa [pySplit] using ihA
      · simp [pySplit, pySplitAux, hc, collapseGo]
        simpa [pySplit] using ihB
      · intro acc hacc
        simp [pySplitAux, hc, hacc, collapseGo, intercalate_space_cons]
        simpa [pySplit] using ihB
      · intro acc hacc
        simp [pySplitAux, hc, hacc, collapseGo, joinRest_cons]
        have := ihB
        simp [pySplit] at this
        simp [this]
    · refine ⟨?_, ?_, ?_, ?_⟩
      · simp [pySplit, pySplitAux, hc, collapseGo]
        simpa using ihC [c] (by simp)
      · simp [pySplit, pySplitAux, hc, collapseGo]
        simpa using ihD [c] (by simp)
      · intro acc hacc
        simp [pySplitAux, hc, collapseGo]
        have := ihC (c :: acc) (by simp)
        simpa using this
      · intro acc hacc
        simp [pySplitAux, hc, collapseGo]
        have := ihD (c :: acc) (by simp)
        simpa using this

/-- Claim C2, counterexample: on the input `"a.b"` the code replaces the
`'.'` with a space, yielding `"a b"`, while lowercasing, *stripping* the
characters outside `[a-z0-9\s]` and collapsing whitespace yields `"ab"`;
so `normalize_text` is not the stripping transformation the claim
states. -/
theorem C2_normalize_strip_counterexample :
    normalize_text ('a' :: '.' :: 'b' :: []) = ('a' :: ' ' :: 'b' :: []) ∧
    normalizeSpecStrip ('a' :: '.' :: 'b' :: []) = ('a' :: 'b' :: []) ∧
    normalize_text ('a' :: '.' :: 'b' :: []) ≠
      normalizeSpecStrip ('a' :: '.' :: 'b' :: []) := by
  decide

/-- Claim C2 as amended: for every string `s`, `normalize_text s` equals
the result of lowercasing `s`, replacing each character outside
`[a-z0-9\s]` by a space, and collapsing whitespace (single spaces
between tokens, no leading or trailing whitespace). -/
theorem C2_normalize_amended (s : List Char) :
    normalize_text s = normalizeSpecAmended s := by
  unfold normalize_text normalizeSpecAmended
  exact (splitCollapseAll ((s.map pyLower).map subChar)).1

theorem pySplitAux_all_word : ∀ (w acc : List Char), noWs w → (acc ≠ [] ∨ w ≠ []) →
    pySplitAux w acc = [acc.reverse ++ w] := by
  intro w
  induction w with
  | nil =>
    intro acc _ hne
    have hacc : acc ≠ [] := by tauto
    simp [pySplitAux, hacc]
  | cons c w ih =>
    intro acc hws _
    have hc : pyWhitespace c = false := hws c (by simp)
    have hw : noWs w := fun d hd => hws d (by simp [hd])
    simp [pySplitAux, hc]
    have := ih (c :: acc) hw (Or.inl (by simp))
    simpa using this

theorem pySplitAux_word_space : ∀ (w acc t : List Char), noWs w → (acc ≠ [] ∨ w ≠ []) →
    pySplitAux (w ++ ' ' :: t) acc = (acc.reverse ++ w) :: pySplitAux t [] := by
  intro w
  induction w with
  | nil =>
    intro acc t _ hne
    have hacc : acc ≠ [] := by tauto
    have hsp : pyWhitespace ' ' = true := by decide
    simp [pySplitAux, hsp, hacc]
  | cons c w ih =>
    intro acc t hws _
    have hc : pyWhitespace c = false := hws c (by simp)
    have hw : noWs w := fun d hd => hws d (by simp [hd])
    simp [pySplitAux, hc]
    have := ih (c :: acc) t hw (Or.inl (by simp))
    simpa using this

theorem pySplitAux_words_ok : ∀ (s acc : List Char),
    (∀ c ∈ acc, pyWhitespace c = false) →
    ∀ w ∈ pySplitAux s acc, w ≠ [] ∧ noWs w := by
  intro s
  induction s with
  | nil =>
    intro acc hacc w hw
    by_cases h : acc = []
    · simp [pySplitAux, h] at hw
    · simp [pySplitAux, h] at hw
      subst hw
      refine ⟨by simpa using h, fun c hc => hacc c (by simpa using hc)⟩
  | cons c rest ih =>
    intro acc hacc w hw
    by_cases hc : pyWhitespace c
    · by_cases h : acc = []
      · simp [pySplitAux, hc, h] at hw
        exact ih [] (by simp) w hw
      · simp [pySplitAux, hc, h] at hw
        rcases hw with hw | hw
        · subst hw
          refine ⟨by simpa using h, fun d hd => hacc d (by simpa using hd)⟩
        · exact ih [] (by simp) w hw
    · simp only [pySplitAux, hc, Bool.false_eq_true, if_false] at hw
      refine ih (c :: acc) ?_ w hw
      intro d hd
      rcases List.mem_cons.mp hd with h | h
      · subst h; simpa using hc
      · exact hacc d h

theorem pySplit_words_ok (s : List Char) : ∀ w ∈ pySplit s, w ≠ [] ∧ noWs w :=
  pySplitAux_words_ok s [] (by simp)

theorem splitJoinTailLen : ∀ (ws : List (List Char)) (m : List Char), ws ≠ [] →
    (∀ w ∈ ws, w ≠ [] ∧ noWs w) → m ≠ [] → noWs m →
    (pySplit (List.intercalate [' '] ws ++ m)).length = ws.length := by
  intro ws
  induction ws with
  | nil => intro m h; exact absurd rfl h
  | cons w vs ih =>
    intro m _ hok hm hmws
    obtain ⟨hwne, hwws⟩ := hok w (by simp)
    cases vs with
    | nil =>
      have h1 : List.intercalate [' '] [w] ++ m = w ++ m := by
        simp [intercalate_space_cons, joinRest_nil]
      rw [h1]
      have hws : noWs (w ++ m) := by
        intro c hc
        rcases List.mem_append.mp hc with h | h
        · exact hwws c h
        · exact hmws c h
      have := pySplitAux_all_word (w ++ m) [] hws (Or.inr (by simp [hwne]))
      simp [pySplit, this]
    | cons v vs' =>
      have h1 : List.intercalate [' '] (w :: v :: vs') ++ m =
          w ++ ' ' :: (List.intercalate [' '] (v :: vs') ++ m) := by
        rw [intercalate_space_cons, joinRest_cons, ← intercalate_space_cons]
        simp
      rw [h1]
      have h2 := pySplitAux_word_space w [] (List.intercalate [' '] (v :: vs') ++ m)
        hwws (Or.inr hwne)
      simp only [pySplit] at *
      rw [h2]
      have h3 := ih m (by simp) (fun u hu => hok u (by simp [hu])) hm hmws
      simp only [pySplit] at h3
      simp [h3]

/-- Claim C5: replies longer than 150 words are truncated by
`synthesize_conversational` to their first 150 words with the ellipsis
marker appended (so that the synthesized text has exactly 150
whitespace-separated words, the last carrying the marker), and replies
of at most 150 words are passed through unchanged. -/
theorem C5_synthesize_truncation (text : List Char) :
    (150 < (pySplit text).length →
      synthesizeText text =
        List.intercalate [' '] ((pySplit text).take 150) ++ ('.' :: '.' :: '.' :: []) ∧
      (pySplit (synthesizeText text)).length = 150) ∧
    ((pySplit text).length ≤ 150 → synthesizeText text = text) := by
  constructor
  · intro h
    have heq : synthesizeText text =
        List.intercalate [' '] ((pySplit text).take 150) ++ ('.' :: '.' :: '.' :: []) := by
      simp [synthesizeText, h]
    refine ⟨heq, ?_⟩
    rw [heq]
    have hlen : ((pySplit text).take 150).length = 150 := by
      rw [List.length_take]
      omega
    have hres := splitJoinTailLen ((pySplit text).take 150) ('.' :: '.' :: '.' :: [])
      (by intro hnil; rw [hnil] at hlen; simp at hlen)
      (fun u hu => pySplit_words_ok text u (List.mem_of_mem_take hu))
      (by simp) (by decide)
    rw [hres, hlen]
  · intro h
    simp [synthesizeText]
    omega

set_option maxRecDepth 4000 in
/-- Witness for C5 at a concrete 200-word reply: the synthesized text is
the first 150 words joined by single spaces with `"..."` appended, and
it has exactly 150 words. -/
theorem C5_synthesize_truncation_witness :
    synthesizeText (List.intercalate [' '] (List.replicate 200 ['w'])) =
      List.intercalate [' ']
        ((pySplit (List.intercalate [' '] (List.replicate 200 ['w']))).take 150) ++
        ('.' :: '.' :: '.' :: []) ∧
    (pySplit (synthesizeText (List.intercalate [' '] (List.replicate 200 ['w'])))).length = 150 :=
  (C5_synthesize_truncation (List.intercalate [' '] (List.replicate 200 ['w']))).1 (by decide)

theorem sumWords_append (l₁ l₂ : List Turn) :
    sumWords (l₁ ++ l₂) = sumWords l₁ + sumWords l₂ := by
  simp [sumWords]

theorem sumWords_reverse (l : List Turn) : sumWords l.reverse = sumWords l := by
  simp [sumWords, List.sum_reverse]

theorem truncGo_take : ∀ (l : List Turn) (total : Nat) (acc : List Turn),
    ∃ k, truncGo l total acc = (acc ++ l.take k).reverse := by
  intro l
  induction l with
  | nil => intro total acc; exact ⟨0, by simp [truncGo]⟩
  | cons e rest ih =>
    intro total acc
    by_cases h : 3000 < total + wordCount e ∧ acc ≠ []
    · exact ⟨0, by simp [truncGo, h]⟩
    · obtain ⟨k, hk⟩ := ih (total + wordCount e) (acc ++ [e])
      refine ⟨k + 1, ?_⟩
      rw [truncGo, if_neg h, hk]
      simp

theorem truncGo_ne_nil (l : List Turn) (total : Nat) (acc : List Turn) (h : acc ≠ []) :
    truncGo l total acc ≠ [] := by
  obtain ⟨k, hk⟩ := truncGo_take l total acc
  rw [hk]
  simp [h]

theorem truncGo_take_min : ∀ (l : List Turn) (total : Nat) (acc : List Turn),
    ∃ k, truncGo l total acc = (acc ++ l.take k).reverse ∧
      ∀ j, k < j → j ≤ l.length → 3000 < total + sumWords (l.take j) := by
  intro l
  induction l with
  | nil =>
    intro total acc
    refine ⟨0, by simp [truncGo], ?_⟩
    intro j h1 h2
    simp only [List.length_nil] at h2
    omega
  | cons e rest ih =>
    intro total acc
    by_cases h : 3000 < total + wordCount e ∧ acc ≠ []
    · refine ⟨0, by simp [truncGo, h], ?_⟩
      intro j h1 h2
      obtain ⟨j', rfl⟩ : ∃ j', j = j' + 1 := ⟨j - 1, by omega⟩
      rw [List.take_succ_cons]
      have hsum : sumWords (e :: rest.take j') = wordCount e + sumWords (rest.take j') := by
        simp [sumWords]
      rw [hsum]
      omega
    · obtain ⟨k, hk, hmin⟩ := ih (total + wordCount e) (acc ++ [e])
      refine ⟨k + 1, ?_, ?_⟩
      · rw [truncGo, if_neg h, hk]
        simp
      · intro j h1 h2
        obtain ⟨j', rfl⟩ : ∃ j', j = j' + 1 := ⟨j - 1, by omega⟩
        rw [List.take_succ_cons]
        have hsum : sumWords (e :: rest.take j') = wordCount e + sumWords (rest.take j') := by
          simp [sumWords]
        rw [hsum]
        have := hmin j' (by omega) (by simpa using h2)
        omega

theorem truncGo_budget : ∀ (l acc : List Turn) (total : Nat), total = sumWords acc →
    (total ≤ 3000 ∨ ∃ e, acc = [e]) →
    sumWords (truncGo l total acc) ≤ 3000 ∨ ∃ e, truncGo l total acc = [e] := by
  intro l
  induction l with
  | nil =>
    intro acc total htot hyp
    rw [truncGo, sumWords_reverse]
    rcases hyp with h | ⟨e, he⟩
    · exact Or.inl (htot ▸ h)
    · exact Or.inr ⟨e, by rw [he]; rfl⟩
  | cons e rest ih =>
    intro acc total htot hyp
    by_cases h : 3000 < total + wordCount e ∧ acc ≠ []
    · rw [truncGo, if_pos h, sumWords_reverse]
      rcases hyp with h' | ⟨u, hu⟩
      · exact Or.inl (htot ▸ h')
      · exact Or.inr ⟨u, by rw [hu]; rfl⟩
    · rw [truncGo, if_neg h]
      refine ih (acc ++ [e]) (total + wordCount e)
        (by rw [htot, sumWords_append]; simp [sumWords]) ?_
      rcases Decidable.not_and_iff_or_not.mp h with h' | h'
      · exact Or.inl (by omega)
      · have : acc = [] := by simpa using h'
        exact Or.inr ⟨e, by rw [this]; rfl⟩

theorem getLast?_drop_eq {α : Type} : ∀ (l : List α) (k : Nat), l.drop k ≠ [] →
    (l.drop k).getLast? = l.getLast? := by
  intro l
  induction l with
  | nil => intro k h; simp at h
  | cons a l' ih =>
    intro k h
    cases k with
    | zero => rfl
    | succ k' =>
      simp only [List.drop_succ_cons] at h ⊢
      rw [ih k' h]
      cases l' with
      | nil => simp at h
      | cons b l'' => simp [List.getLast?_cons_cons]

/-- Claim C3: `_truncate_history` removes turns only from the oldest end
(the result is a suffix of the input, so the kept turns appear in their
original oldest-to-newest order), and only *until* the total word count
of the remaining turns is at most 3000: every dropped turn was
necessary, in that any strictly longer suffix exceeds 3000 words, and in
particular a history already within the budget is returned unchanged.
The kept turns total at most 3000 words except that the single most
recent turn is kept even when it alone exceeds the budget, and the
result is never empty for a nonempty input. -/
theorem C3_truncate_history (msgs : List Turn) (h : msgs ≠ []) :
    (∃ k, _truncate_history msgs = msgs.drop k ∧
      ∀ j, j < k → 3000 < sumWords (msgs.drop j)) ∧
    (sumWords msgs ≤ 3000 → _truncate_history msgs = msgs) ∧
    _truncate_history msgs ≠ [] ∧
    (sumWords (_truncate_history msgs) ≤ 3000 ∨
      ∃ e, msgs.getLast? = some e ∧ _truncate_history msgs = [e]) := by
  obtain ⟨k, hk, hmin⟩ := truncGo_take_min msgs.reverse 0 []
  simp only [List.nil_append] at hk
  have hsuffix : _truncate_history msgs = msgs.drop (msgs.length - k) := by
    rw [_truncate_history, hk, ← List.rtake_eq_reverse_take_reverse, List.rtake]
  have hmin' : ∀ j, j < msgs.length - k → 3000 < sumWords (msgs.drop j) := by
    intro j hj
    have hdropeq : msgs.drop j = (msgs.reverse.take (msgs.length - j)).reverse := by
      rw [← List.rtake_eq_reverse_take_reverse, List.rtake]
      congr 1
      omega
    rw [hdropeq, sumWords_reverse]
    have := hmin (msgs.length - j) (by omega) (by simp)
    omega
  have hfit : sumWords msgs ≤ 3000 → _truncate_history msgs = msgs := by
    intro hle
    have hK : msgs.length - k = 0 := by
      by_contra hne
      have := hmin' 0 (by omega)
      rw [List.drop_zero] at this
      omega
    rw [hsuffix, hK, List.drop_zero]
  refine ⟨⟨msgs.length - k, hsuffix, hmin'⟩, hfit, ?_, ?_⟩
  · obtain ⟨y, ys, hrev⟩ : ∃ y ys, msgs.reverse = y :: ys := by
      cases hrev : msgs.reverse with
      | nil => exact absurd (by simpa using congrArg List.reverse hrev) h
      | cons y ys => exact ⟨y, ys, rfl⟩
    rw [_truncate_history, hrev]
    simp only [truncGo, ne_eq, not_true_eq_false, and_false, if_false]
    exact truncGo_ne_nil _ _ _ (by simp)
  · have hb := truncGo_budget msgs.reverse [] 0 (by simp [sumWords]) (Or.inl (by omega))
    rw [show truncGo msgs.reverse 0 [] = _truncate_history msgs from rfl] at hb
    rcases hb with hb | ⟨e, he⟩
    · exact Or.inl hb
    · refine Or.inr ⟨e, ?_, he⟩
      have hd : msgs.drop (msgs.length - k) = [e] := by rw [← hsuffix, he]
      have hlast : (msgs.drop (msgs.length - k)).getLast? = msgs.getLast? :=
        getLast?_drop_eq msgs _ (by rw [hd]; simp)
      rw [← hlast, hd]
      rfl

/-- Witness for C3 at a concrete one-turn history: the turn fits the
budget, so it is kept whole, is the most recent turn, and no longer
suffix was dropped. -/
theorem C3_truncate_history_witness :
    (∃ k, _truncate_history [⟨"user", 'h' :: 'i' :: []⟩] =
      ([⟨"user", 'h' :: 'i' :: []⟩] : List Turn).drop k ∧
      ∀ j, j < k →
        3000 < sumWords (([⟨"user", 'h' :: 'i' :: []⟩] : List Turn).drop j)) ∧
    (sumWords ([⟨"user", 'h' :: 'i' :: []⟩] : List Turn) ≤ 3000 →
      _truncate_history [⟨"user", 'h' :: 'i' :: []⟩] = [⟨"user", 'h' :: 'i' :: []⟩]) ∧
    _truncate_history [⟨"user", 'h' :: 'i' :: []⟩] ≠ [] ∧
    (sumWords (_truncate_history [⟨"user", 'h' :: 'i' :: []⟩]) ≤ 3000 ∨
      ∃ e, ([⟨"user", 'h' :: 'i' :: []⟩] : List Turn).getLast? = some e ∧
        _truncate_history [⟨"user", 'h' :: 'i' :: []⟩] = [e]) :=
  C3_truncate_history [⟨"user", 'h' :: 'i' :: []⟩] (by simp)

/-- Claim C7, counterexample: the filename `"passwd.mp3 "` (with a
trailing space) has no path component (`basename` leaves it unchanged)
and does not end in `".mp3"`, so the claim as stated requires a 400
rejection; but `cleanup_audio` strips the name first and proceeds to
delete `"passwd.mp3"`. -/
theorem C7_cleanup_strip_counterexample :
    basename ('p' :: 'a' :: 's' :: 's' :: 'w' :: 'd' :: '.' :: 'm' :: 'p' :: '3' :: ' ' :: []) =
      ('p' :: 'a' :: 's' :: 's' :: 'w' :: 'd' :: '.' :: 'm' :: 'p' :: '3' :: ' ' :: []) ∧
    endsWithMp3
      ('p' :: 'a' :: 's' :: 's' :: 'w' :: 'd' :: '.' :: 'm' :: 'p' :: '3' :: ' ' :: []) = false ∧
    cleanup_audio
      (some ('p' :: 'a' :: 's' :: 's' :: 'w' :: 'd' :: '.' :: 'm' :: 'p' :: '3' :: ' ' :: [])) =
      .deleteIfExists ('p' :: 'a' :: 's' :: 's' :: 'w' :: 'd' :: '.' :: 'm' :: 'p' :: '3' :: []) := by
  decide

/-- Claim C7 as amended: for every request whose *stripped* filename
either contains a path component (its basename differs from it) or does
not end in `".mp3"`, `cleanup_audio` answers HTTP 400 and deletes
nothing; in particular `"../../etc/passwd.mp3"` is rejected. -/
theorem C7_cleanup_validation_amended (f : Option (List Char))
    (h : basename (pyStrip (f.getD [])) ≠ pyStrip (f.getD []) ∨
      endsWithMp3 (pyStrip (f.getD [])) = false) :
    cleanup_audio f = .badRequest := by
  have hcond : basename (pyStrip (f.getD [])) ≠ pyStrip (f.getD []) ∨
      endsWithMp3 (basename (pyStrip (f.getD []))) = false := by
    by_cases hb : basename (pyStrip (f.getD [])) = pyStrip (f.getD [])
    · rcases h with h | h
      · exact absurd hb h
      · exact Or.inr (by rw [hb]; exact h)
    · exact Or.inl hb
  simp only [cleanup_audio]
  by_cases he : pyStrip (f.getD []) = []
  · rw [if_pos he]
  · rw [if_neg he, if_pos hcond]

/-- Witness for C7 as amended: the traversal name
`"../../etc/passwd.mp3"` is rejected. -/
theorem C7_cleanup_validation_witness :
    cleanup_audio (some ('.' :: '.' :: '/' :: '.' :: '.' :: '/' :: 'e' :: 't' :: 'c' :: '/' ::
      'p' :: 'a' :: 's' :: 's' :: 'w' :: 'd' :: '.' :: 'm' :: 'p' :: '3' :: [])) = .badRequest :=
  C7_cleanup_validation_amended
    (some ('.' :: '.' :: '/' :: '.' :: '.' :: '/' :: 'e' :: 't' :: 'c' :: '/' ::
      'p' :: 'a' :: 's' :: 's' :: 'w' :: 'd' :: '.' :: 'm' :: 'p' :: '3' :: []))
    (Or.inl (by decide))

/-- Claim C9: after a `save_progress_entry` call with a non-empty user
id, that user's in-memory cache holds the most recently appended entries
in their original append order (the last at-most-100 elements of the old
history with the new entry appended), has at most 100 entries, and ends
with the new entry. -/
theorem C9_progress_cache (cache : ProgressCache) (uid : String) (content : ContentItem)
    (transcript : String) (score : ℚ) (ctype newId : String) (now : Nat)
    (h : uid ≠ "") :
    save_progress_entry cache uid content transcript score ctype newId now uid =
      (cache uid ++ [mkProgressEntry content transcript score ctype newId now]).drop
        ((cache uid).length + 1 - 100) ∧
    (save_progress_entry cache uid content transcript score ctype newId now uid).length ≤ 100 ∧
    (save_progress_entry cache uid content transcript score ctype newId now uid).getLast? =
      some (mkProgressEntry content transcript score ctype newId now) := by
  have hsave : save_progress_entry cache uid content transcript score ctype newId now uid =
      (let history := cache uid ++ [mkProgressEntry content transcript score ctype newId now]
       if 100 < history.length then history.drop (history.length - 100) else history) := by
    simp [save_progress_entry, h]
  set e := mkProgressEntry content transcript score ctype newId now with he
  set old := cache uid with hold
  simp only at hsave
  by_cases hlen : 100 < (old ++ [e]).length
  · have hdrop : save_progress_entry cache uid content transcript score ctype newId now uid =
        (old ++ [e]).drop ((old ++ [e]).length - 100) := by rw [hsave, if_pos hlen]
    have hlen' : (old ++ [e]).length = old.length + 1 := by simp
    refine ⟨by rw [hdrop, hlen'], ?_, ?_⟩
    · rw [hdrop, List.length_drop]
      omega
    · rw [hdrop, getLast?_drop_eq _ _ ?_]
      · exact List.getLast?_concat old
      · intro hnil
        have := congrArg List.length hnil
        rw [List.length_drop] at this
        simp at this
        omega
  · have hkeep : save_progress_entry cache uid content transcript score ctype newId now uid =
        old ++ [e] := by rw [hsave, if_neg hlen]
    have hlen' : (old ++ [e]).length = old.length + 1 := by simp
    refine ⟨?_, ?_, ?_⟩
    · rw [hkeep]
      have : old.length + 1 - 100 = 0 := by omega
      rw [this, List.drop_zero]
    · rw [hkeep]
      omega
    · rw [hkeep]
      exact List.getLast?_concat old

/-- Witness for C9 at a concrete call on an empty cache. -/
theorem C9_progress_cache_witness :
    save_progress_entry (fun _ => []) "u" ⟨some 1, some "t"⟩ "hello" 95 "sentence" "id1" 7 "u" =
      ((fun _ => ([] : List ProgressEntry)) "u" ++
        [mkProgressEntry ⟨some 1, some "t"⟩ "hello" 95 "sentence" "id1" 7]).drop
        (((fun _ => ([] : List ProgressEntry)) "u").length + 1 - 100) ∧
    (save_progress_entry (fun _ => []) "u" ⟨some 1, some "t"⟩ "hello" 95 "sentence" "id1" 7
      "u").length ≤ 100 ∧
    (save_progress_entry (fun _ => []) "u" ⟨some 1, some "t"⟩ "hello" 95 "sentence" "id1" 7
      "u").getLast? = some (mkProgressEntry ⟨some 1, some "t"⟩ "hello" 95 "sentence" "id1" 7) :=
  C9_progress_cache (fun _ => []) "u" ⟨some 1, some "t"⟩ "hello" 95 "sentence" "id1" 7
    (by decide)

/-- Claim C4: with the default `retries = 3` the loop visits attempts
1, 2, 3; an HTTP 503 or a transient exception with attempts remaining
sleeps `backoff * 2 ^ (attempt - 1)` and retries, while on the final
attempt the last error is re-raised; in particular two 503s followed by
a successfully parsed response return that success after exactly the two
backoff sleeps `backoff * 2 ^ 0` and `backoff * 2 ^ 1`. -/
theorem C4_retry_policy (o : Nat → AttemptResult) (b : ℚ) (r : GResponse) (s : String)
    (k e : Nat) (st : Option Nat) (rest : List Nat) :
    (o 1 = .httpError (some 503) → o 2 = .httpError (some 503) → o 3 = .response r →
      extractText r = .ok s →
      call_gemini_api o 3 b = ([b * 2 ^ (0 : Nat), b * 2 ^ (1 : Nat)], .ok s)) ∧
    (o k = .httpError (some 503) → k < 3 →
      callLoop o 3 b (k :: rest) =
        (b * 2 ^ (k - 1) :: (callLoop o 3 b rest).1, (callLoop o 3 b rest).2)) ∧
    (o k = .transient e → k < 3 →
      callLoop o 3 b (k :: rest) =
        (b * 2 ^ (k - 1) :: (callLoop o 3 b rest).1, (callLoop o 3 b rest).2)) ∧
    (o 3 = .httpError st → callLoop o 3 b (3 :: rest) = ([], .error (.httpErr st))) ∧
    (o 3 = .transient e → callLoop o 3 b (3 :: rest) = ([], .error (.transientErr e))) := by
  refine ⟨?_, ?_, ?_, ?_, ?_⟩
  · intro h1 h2 h3 h4
    have hrange : List.range' 1 3 = [1, 2, 3] := rfl
    simp [call_gemini_api, hrange, callLoop, h1, h2, h3, h4]
  · intro hk hlt
    simp [callLoop, hk, hlt]
  · intro hk hlt
    simp [callLoop, hk, hlt]
  · intro h3
    simp [callLoop, h3]
  · intro h3
    simp [callLoop, h3]

/-- Witness for C4: two 503s then a success return the parsed reply
after exactly the two backoff sleeps. -/
theorem C4_retry_policy_witness :
    call_gemini_api demoOutcomes 3 1 = ([1 * 2 ^ (0 : Nat), 1 * 2 ^ (1 : Nat)], .ok "ok") :=
  (C4_retry_policy demoOutcomes 1 demoResponse "ok" 1 0 none []).1 rfl rfl rfl rfl

/-- Claim C10: an `HTTPError` whose status is not 503 (including a
missing status) is re-raised from the very attempt on which it occurred:
no sleep is recorded, the remaining attempts are never consulted, and
this holds whatever `retries` still allows. -/
theorem C10_non503_raised_immediately (o : Nat → AttemptResult) (retries : Nat) (b : ℚ)
    (k : Nat) (rest : List Nat) (st : Option Nat)
    (ho : o k = .httpError st) (hst : st ≠ some 503) :
    callLoop o retries b (k :: rest) = ([], .error (.httpErr st)) := by
  simp [callLoop, ho, hst]

/-- Witness for C10: an HTTP 500 on the first of three attempts is
raised at once, with no sleeps. -/
theorem C10_non503_raised_immediately_witness :
    callLoop (fun _ => .httpError (some 500)) 3 1 (1 :: 2 :: 3 :: []) =
      ([], .error (.httpErr (some 500))) :=
  C10_non503_raised_immediately (fun _ => .httpError (some 500)) 3 1 1 (2 :: 3 :: [])
    (some 500) rfl (by decide)

theorem callLoop_noCandidates (o : Nat → AttemptResult) (retries : Nat) (b : ℚ)
    (r : GResponse) (hor : ∀ i, o i = .response r) (hc : r.candidates = []) :
    ∀ l : List Nat, l ≠ [] → (∀ m, l.getLast? = some m → ¬ m < retries) →
      (callLoop o retries b l).2 = .error .noCandidates := by
  intro l
  induction l with
  | nil => intro h; exact absurd rfl h
  | cons a rest ih =>
    intro _ hlast
    have hext : extractText r = .error "No response from Gemini API" := by
      simp [extractText, hc]
    cases rest with
    | nil =>
      have hnl : ¬ a < retries := hlast a (by simp)
      rw [callLoop]
      simp [hor a, hext, hnl]
    | cons b' rest' =>
      by_cases ha : a < retries
      · have htail := ih (by simp)
          (fun m hm => hlast m (by rw [List.getLast?_cons_cons]; exact hm))
        rw [callLoop]
        simp only [hor a, hext, ha, if_true]
        exact htail
      · rw [callLoop]
        simp [hor a, hext, ha]

theorem range'_one_getLast? (n : Nat) (h : 1 ≤ n) :
    (List.range' 1 n).getLast? = some n := by
  cases n with
  | zero => omega
  | succ m =>
    rw [List.range'_concat]
    simp [Nat.add_comm]

/-- Claim C8: a parsed response with no candidates raises the fatal
`RuntimeError("No response from Gemini API")` (which `call_gemini_api`
ends with when every attempt parses to no candidates); otherwise the
first candidate's content yields the returned text: its direct `"text"`
field when the content is a dict with one, else the concatenation of the
texts of its `"parts"`, else the stringified content. -/
theorem C8_response_parsing (r : GResponse) (b : ℚ) (retries : Nat) :
    (r.candidates = [] → extractText r = .error "No response from Gemini API") ∧
    (∀ c rest, r.candidates = c :: rest → extractText r = .ok (contentText c.content)) ∧
    (1 ≤ retries → r.candidates = [] →
      (call_gemini_api (fun _ => .response r) retries b).2 = .error .noCandidates) := by
  refine ⟨?_, ?_, ?_⟩
  · intro hc
    simp [extractText, hc]
  · intro c rest hc
    simp [extractText, hc]
  · intro hr hc
    refine callLoop_noCandidates _ retries b r (fun _ => rfl) hc _ ?_ ?_
    · simp [List.range'_eq_nil]
      omega
    · intro m hm
      rw [range'_one_getLast? retries hr] at hm
      cases hm
      omega

/-- Witness for C8: the empty-candidates response yields the fatal
error, both from the parser and from a full three-attempt call. -/
theorem C8_response_parsing_witness :
    extractText ⟨[]⟩ = .error "No response from Gemini API" ∧
    (call_gemini_api (fun _ => .response ⟨[]⟩) 3 1).2 = .error .noCandidates :=
  ⟨(C8_response_parsing ⟨[]⟩ 1 3).1 rfl, (C8_response_parsing ⟨[]⟩ 1 3).2.2 (by decide) rfl⟩

/-- Claim C1: `calculate_similarity` returns `0.0` when either
normalized string is empty, and otherwise the sequence-matching ratio of
the two normalized strings scaled to 0-100 and rounded to 2 decimal
places. -/
theorem C1_calculate_similarity (ref att : List Char) :
    ((normalize_text ref = [] ∨ normalize_text att = []) →
      calculate_similarity ref att = 0) ∧
    (normalize_text ref ≠ [] → normalize_text att ≠ [] →
      calculate_similarity ref att =
        round2 (smRatio (normalize_text ref) (normalize_text att) * 100)) := by
  constructor
  · intro h
    simp only [calculate_similarity]
    rw [if_pos h]
  · intro h1 h2
    simp only [calculate_similarity]
    rw [if_neg (by tauto)]

/-- Witness for C1: an attempt that normalizes to nothing scores `0.0`,
and a non-degenerate pair scores the rounded scaled ratio. -/
theorem C1_calculate_similarity_witness :
    calculate_similarity ('a' :: 'b' :: []) ('.' :: []) = 0 ∧
    calculate_similarity ('a' :: 'b' :: []) ('a' :: []) =
      round2 (smRatio (normalize_text ('a' :: 'b' :: [])) (normalize_text ('a' :: [])) * 100) :=
  ⟨(C1_calculate_similarity ('a' :: 'b' :: []) ('.' :: [])).1 (Or.inr (by decide)),
   (C1_calculate_similarity ('a' :: 'b' :: []) ('a' :: [])).2 (by decide) (by decide)⟩

theorem flmInner_bounds (i alo blo bhi m : Nat) (him : i = alo + m) (j2 : Nat → Nat)
    (hj2 : ∀ x, j2 x ≤ m ∧ (j2 x ≠ 0 → blo ≤ x ∧ j2 x ≤ x + 1 - blo)) :
    ∀ (js : List Nat) (best : Nat × Nat × Nat) (new : Nat → Nat),
      (∀ j ∈ js, blo ≤ j ∧ j < bhi) →
      alo ≤ best.1 → blo ≤ best.2.1 → best.1 + best.2.2 ≤ i + 1 →
      best.2.1 + best.2.2 ≤ bhi →
      (∀ x, new x ≤ m + 1 ∧ (new x ≠ 0 → blo ≤ x ∧ new x ≤ x + 1 - blo)) →
      alo ≤ (flmInner i j2 js best new).1.1 ∧
      blo ≤ (flmInner i j2 js best new).1.2.1 ∧
      (flmInner i j2 js best new).1.1 + (flmInner i j2 js best new).1.2.2 ≤ i + 1 ∧
      (flmInner i j2 js best new).1.2.1 + (flmInner i j2 js best new).1.2.2 ≤ bhi ∧
      ∀ x, (flmInner i j2 js best new).2 x ≤ m + 1 ∧
        ((flmInner i j2 js best new).2 x ≠ 0 →
          blo ≤ x ∧ (flmInner i j2 js best new).2 x ≤ x + 1 - blo) := by
  intro js
  induction js with
  | nil =>
    intro best new _ h1 h2 h3 h4 h5
    simp only [flmInner]
    exact ⟨h1, h2, h3, h4, h5⟩
  | cons j js ih =>
    intro best new hmem h1 h2 h3 h4 h5
    obtain ⟨hjb, hjh⟩ := hmem j (by simp)
    simp only [flmInner]
    set v := (if j = 0 then 0 else j2 (j - 1)) with hv
    have hvm : v ≤ m := by
      rw [hv]
      split
      · omega
      · exact (hj2 (j - 1)).1
    have hkj : v + 1 ≤ j + 1 - blo := by
      by_cases hj0 : j = 0
      · have : blo = 0 := by omega
        simp [hv, hj0, this]
      · rw [hv, if_neg hj0]
        by_cases hv0 : j2 (j - 1) = 0
        · rw [hv0]; omega
        · have := (hj2 (j - 1)).2 hv0
          omega
    have hnew' : ∀ x, (fun x => if x = j then v + 1 else new x) x ≤ m + 1 ∧
        ((fun x => if x = j then v + 1 else new x) x ≠ 0 →
          blo ≤ x ∧ (fun x => if x = j then v + 1 else new x) x ≤ x + 1 - blo) := by
      intro x
      show (if x = j then v + 1 else new x) ≤ m + 1 ∧
        ((if x = j then v + 1 else new x) ≠ 0 →
          blo ≤ x ∧ (if x = j then v + 1 else new x) ≤ x + 1 - blo)
      by_cases hx : x = j
      · rw [if_pos hx, hx]
        exact ⟨by omega, fun _ => ⟨hjb, hkj⟩⟩
      · rw [if_neg hx]
        exact h5 x
    have hmem' : ∀ u ∈ js, blo ≤ u ∧ u < bhi := fun u hu => hmem u (by simp [hu])
    by_cases hup : best.2.2 < v + 1
    · rw [if_pos hup]
      refine ih (i + 1 - (v + 1), j + 1 - (v + 1), v + 1) _ hmem' ?_ ?_ ?_ ?_ hnew'
      · simp only
        omega
      · simp only
        omega
      · simp only
        omega
      · simp only
        omega
    · rw [if_neg hup]
      exact ih best _ hmem' h1 h2 h3 h4 hnew'

theorem flmRow_bounds (a b : List Char) (alo blo bhi m : Nat)
    (st : (Nat × Nat × Nat) × (Nat → Nat)) (hinv : flmInv alo blo bhi m st) :
    flmInv alo blo bhi (m + 1) (flmRow a b blo bhi st (alo + m)) := by
  obtain ⟨h1, h2, h3, h4, h5⟩ := hinv
  have hmem : ∀ j ∈ (b2j b (getC a (alo + m))).filter (fun j => blo ≤ j && j < bhi),
      blo ≤ j ∧ j < bhi := by
    intro j hj
    have := List.of_mem_filter hj
    simpa using this
  have hres := flmInner_bounds (alo + m) alo blo bhi m rfl st.2 h5 _ st.1 (fun _ => 0)
    hmem h1 h2 (by omega) h4 (by intro x; simp)
  unfold flmRow
  dsimp only
  refine ⟨hres.1, hres.2.1, ?_, hres.2.2.2.1, hres.2.2.2.2⟩
  have := hres.2.2.1
  omega

theorem flmFold_bounds (a b : List Char) (alo blo bhi : Nat) :
    ∀ (cnt m : Nat) (st : (Nat × Nat × Nat) × (Nat → Nat)),
      flmInv alo blo bhi m st →
      flmInv alo blo bhi (m + cnt)
        ((List.range' (alo + m) cnt).foldl (flmRow a b blo bhi) st) := by
  intro cnt
  induction cnt with
  | zero => intro m st h; simpa using h
  | succ n ih =>
    intro m st h
    rw [List.range'_succ]
    simp only [List.foldl_cons]
    have hstep := flmRow_bounds a b alo blo bhi m st h
    have hgoal : m + (n + 1) = m + 1 + n := by omega
    rw [hgoal]
    exact ih (m + 1) _ hstep

theorem flmDP_bounds (a b : List Char) (alo ahi blo bhi : Nat)
    (h1 : alo ≤ ahi) (h2 : blo ≤ bhi) :
    alo ≤ (flmDP a b alo ahi blo bhi).1 ∧ blo ≤ (flmDP a b alo ahi blo bhi).2.1 ∧
    (flmDP a b alo ahi blo bhi).1 + (flmDP a b alo ahi blo bhi).2.2 ≤ ahi ∧
    (flmDP a b alo ahi blo bhi).2.1 + (flmDP a b alo ahi blo bhi).2.2 ≤ bhi := by
  have h0 : flmInv alo blo bhi 0 ((alo, blo, 0), fun _ => 0) := by
    refine ⟨le_refl _, le_refl _, by simp, by simpa using h2, by intro x; simp⟩
  have hfold := flmFold_bounds a b alo blo bhi (ahi - alo) 0 _ h0
  rw [Nat.add_zero] at hfold
  obtain ⟨g1, g2, g3, g4, _⟩ := hfold
  unfold flmDP
  exact ⟨g1, g2, by omega, g4⟩

theorem extendLo_bounds (a b : List Char) (alo blo : Nat) :
    ∀ (fuel : Nat) (st : Nat × Nat × Nat) (ahi bhi : Nat),
      alo ≤ st.1 → blo ≤ st.2.1 → st.1 + st.2.2 ≤ ahi → st.2.1 + st.2.2 ≤ bhi →
      alo ≤ (extendLo a b alo blo fuel st).1 ∧ blo ≤ (extendLo a b alo blo fuel st).2.1 ∧
      (extendLo a b alo blo fuel st).1 + (extendLo a b alo blo fuel st).2.2 ≤ ahi ∧
      (extendLo a b alo blo fuel st).2.1 + (extendLo a b alo blo fuel st).2.2 ≤ bhi := by
  intro fuel
  induction fuel with
  | zero =>
    intro st ahi bhi h1 h2 h3 h4
    simp only [extendLo]
    exact ⟨h1, h2, h3, h4⟩
  | succ n ih =>
    intro st ahi bhi h1 h2 h3 h4
    obtain ⟨bi, bj, bs⟩ := st
    dsimp only at h1 h2 h3 h4
    simp only [extendLo]
    split
    · next hcond =>
      exact ih (bi - 1, bj - 1, bs + 1) ahi bhi (by dsimp only; omega) (by dsimp only; omega)
        (by dsimp only; omega) (by dsimp only; omega)
    · exact ⟨h1, h2, h3, h4⟩

theorem extendHi_bounds (a b : List Char) (ahi bhi : Nat) :
    ∀ (fuel : Nat) (st : Nat × Nat × Nat) (alo blo : Nat),
      alo ≤ st.1 → blo ≤ st.2.1 → st.1 + st.2.2 ≤ ahi → st.2.1 + st.2.2 ≤ bhi →
      alo ≤ (extendHi a b ahi bhi fuel st).1 ∧ blo ≤ (extendHi a b ahi bhi fuel st).2.1 ∧
      (extendHi a b ahi bhi fuel st).1 + (extendHi a b ahi bhi fuel st).2.2 ≤ ahi ∧
      (extendHi a b ahi bhi fuel st).2.1 + (extendHi a b ahi bhi fuel st).2.2 ≤ bhi := by
  intro fuel
  induction fuel with
  | zero =>
    intro st alo blo h1 h2 h3 h4
    simp only [extendHi]
    exact ⟨h1, h2, h3, h4⟩
  | succ n ih =>
    intro st alo blo h1 h2 h3 h4
    obtain ⟨bi, bj, bs⟩ := st
    dsimp only at h1 h2 h3 h4
    simp only [extendHi]
    split
    · next hcond =>
      obtain ⟨hc1, hc2, _⟩ := hcond
      exact ih (bi, bj, bs + 1) alo blo (by dsimp only; omega) (by dsimp only; omega)
        (by dsimp only at hc1 ⊢; omega) (by dsimp only at hc2 ⊢; omega)
    · exact ⟨h1, h2, h3, h4⟩

theorem flm_bounds (a b : List Char) (alo ahi blo bhi : Nat)
    (h1 : alo ≤ ahi) (h2 : blo ≤ bhi) :
    alo ≤ (find_longest_match a b alo ahi blo bhi).1 ∧
    blo ≤ (find_longest_match a b alo ahi blo bhi).2.1 ∧
    (find_longest_match a b alo ahi blo bhi).1 +
      (find_longest_match a b alo ahi blo bhi).2.2 ≤ ahi ∧
    (find_longest_match a b alo ahi blo bhi).2.1 +
      (find_longest_match a b alo ahi blo bhi).2.2 ≤ bhi := by
  unfold find_longest_match
  have hdp := flmDP_bounds a b alo ahi blo bhi h1 h2
  have he1 := extendLo_bounds a b alo blo (flmDP a b alo ahi blo bhi).1
    (flmDP a b alo ahi blo bhi) ahi bhi hdp.1 hdp.2.1 hdp.2.2.1 hdp.2.2.2
  exact extendHi_bounds a b ahi bhi ahi _ alo blo he1.1 he1.2.1 he1.2.2.1 he1.2.2.2

theorem matchTotalF_le (a b : List Char) :
    ∀ (fuel alo ahi blo bhi : Nat), alo ≤ ahi → blo ≤ bhi →
      matchTotalF a b fuel alo ahi blo bhi ≤ min (ahi - alo) (bhi - blo) := by
  intro fuel
  induction fuel with
  | zero => intro alo ahi blo bhi _ _; simp [matchTotalF]
  | succ n ih =>
    intro alo ahi blo bhi h1 h2
    simp only [matchTotalF]
    set r := find_longest_match a b alo ahi blo bhi with hr
    by_cases hk : r.2.2 = 0
    · rw [if_pos hk]
      omega
    · rw [if_neg hk]
      have hb := flm_bounds a b alo ahi blo bhi h1 h2
      rw [← hr] at hb
      have hL := ih alo r.1 blo r.2.1 hb.1 hb.2.1
      have hR := ih (r.1 + r.2.2) ahi (r.2.1 + r.2.2) bhi (by omega) (by omega)
      omega

theorem matchTotal_le (a b : List Char) : matchTotal a b ≤ min a.length b.length := by
  have := matchTotalF_le a b (a.length + b.length + 1) 0 a.length 0 b.length
    (by omega) (by omega)
  simpa using this

theorem cellOk_elim {a : List Char} {i x : Nat} (h : cellOk a i x = true) :
    x < a.length ∧ getC a x = getC a i ∧ isPopular a (getC a i) = false := by
  unfold cellOk at h
  simp only [Bool.and_eq_true, decide_eq_true_eq, Bool.not_eq_true'] at h
  exact ⟨h.1.1, h.1.2, h.2⟩

theorem cellOk_diag_col {a : List Char} {i x : Nat} (h : cellOk a i x = true) :
    cellOk a x x = true := by
  obtain ⟨h1, h2, h3⟩ := cellOk_elim h
  unfold cellOk
  simp only [Bool.and_eq_true, decide_eq_true_eq, Bool.not_eq_true']
  refine ⟨⟨h1, trivial⟩, ?_⟩
  rw [h2]
  exact h3

theorem cellOk_diag_row {a : List Char} {i x : Nat} (h : cellOk a i x = true)
    (hi : i < a.length) : cellOk a i i = true := by
  obtain ⟨_, _, h3⟩ := cellOk_elim h
  unfold cellOk
  simp only [Bool.and_eq_true, decide_eq_true_eq, Bool.not_eq_true']
  exact ⟨⟨hi, trivial⟩, h3⟩

theorem cellRun_zero (a : List Char) (x : Nat) :
    cellRun a 0 x = if cellOk a 0 x then 1 else 0 := rfl

theorem cellRun_succ_zero (a : List Char) (i : Nat) :
    cellRun a (i + 1) 0 = if cellOk a (i + 1) 0 then 1 else 0 := rfl

theorem cellRun_succ_succ (a : List Char) (i x : Nat) :
    cellRun a (i + 1) (x + 1) =
      if cellOk a (i + 1) (x + 1) then cellRun a i x + 1 else 0 := rfl

theorem cellRun_eq_zero {a : List Char} {i x : Nat} (h : cellOk a i x = false) :
    cellRun a i x = 0 := by
  match i, x with
  | 0, x => simp [cellRun, h]
  | i + 1, 0 => simp [cellRun, h]
  | i + 1, x + 1 => simp [cellRun, h]

theorem cellRun_diag_one {a : List Char} {x : Nat} (h : cellOk a x x = true) :
    1 ≤ cellRun a x x := by
  match x with
  | 0 => simp [cellRun, h]
  | y + 1 => simp [cellRun, h]

theorem cellRun_diag_succ {a : List Char} {y : Nat} (h : cellOk a (y + 1) (y + 1) = true) :
    cellRun a (y + 1) (y + 1) = cellRun a y y + 1 := by
  simp [cellRun, h]

theorem cellRun_le_diag_col (a : List Char) : ∀ (i x : Nat),
    cellRun a i x ≤ cellRun a x x
  | 0, x => by
    by_cases h : cellOk a 0 x = true
    · rw [cellRun_zero, if_pos h]
      exact cellRun_diag_one (cellOk_diag_col h)
    · rw [cellRun_zero, if_neg h]
      omega
  | i + 1, 0 => by
    by_cases h : cellOk a (i + 1) 0 = true
    · rw [cellRun_succ_zero, if_pos h]
      exact cellRun_diag_one (cellOk_diag_col h)
    · rw [cellRun_succ_zero, if_neg h]
      omega
  | i + 1, y + 1 => by
    by_cases h : cellOk a (i + 1) (y + 1) = true
    · rw [cellRun_succ_succ, if_pos h, cellRun_diag_succ (cellOk_diag_col h)]
      have := cellRun_le_diag_col a i y
      omega
    · rw [cellRun_succ_succ, if_neg h]
      omega

theorem cellRun_le_diag_row (a : List Char) : ∀ (i x : Nat), i < a.length →
    cellRun a i x ≤ cellRun a i i
  | 0, x, hi => by
    by_cases h : cellOk a 0 x = true
    · rw [cellRun_zero, if_pos h]
      exact cellRun_diag_one (cellOk_diag_row h hi)
    · rw [cellRun_zero, if_neg h]
      omega
  | i + 1, 0, hi => by
    by_cases h : cellOk a (i + 1) 0 = true
    · rw [cellRun_succ_zero, if_pos h, cellRun_diag_succ (cellOk_diag_row h hi)]
      omega
    · rw [cellRun_succ_zero, if_neg h]
      omega
  | i + 1, y + 1, hi => by
    by_cases h : cellOk a (i + 1) (y + 1) = true
    · rw [cellRun_succ_succ, if_pos h, cellRun_diag_succ (cellOk_diag_row h hi)]
      have := cellRun_le_diag_row a i y (by omega)
      omega
    · rw [cellRun_succ_succ, if_neg h]
      omega

theorem prevRow_step {a : List Char} {i j : Nat} (h : cellOk a i j = true) :
    (if j = 0 then 0 else prevRowFun a i (j - 1)) + 1 = cellRun a i j := by
  match i, j with
  | 0, 0 => simp [prevRowFun, cellRun, h]
  | 0, y + 1 => simp [prevRowFun, cellRun, h]
  | i + 1, 0 => simp [prevRowFun, cellRun, h]
  | i + 1, y + 1 => simp [prevRowFun, cellRun, h]

theorem newFun_step (g new : Nat → Nat) (j : Nat) (js : List Nat)
    (hnew : ∀ x, new x = if x ∈ j :: js then 0 else g x) (hj : j ∉ js) :
    ∀ x, (fun y => if y = j then g j else new y) x = if x ∈ js then 0 else g x := by
  intro x
  show (if x = j then g j else new x) = if x ∈ js then 0 else g x
  by_cases hx : x = j
  · subst hx
    rw [if_pos rfl, if_neg hj]
  · rw [if_neg hx, hnew x]
    by_cases hxs : x ∈ js
    · rw [if_pos (List.mem_cons.mpr (Or.inr hxs)), if_pos hxs]
    · have hnc : x ∉ j :: js := by
        intro h
        rcases List.mem_cons.mp h with h | h
        · exact hx h
        · exact hxs h
      rw [if_neg hnc, if_neg hxs]

theorem flmInner_diag (a : List Char) (i : Nat) (hi : i < a.length)
    (j2 : Nat → Nat) (hj2 : ∀ x, j2 x = prevRowFun a i x) :
    ∀ (js : List Nat) (best : Nat × Nat × Nat) (new : Nat → Nat),
      List.Pairwise (· < ·) js →
      (∀ j ∈ js, cellOk a i j = true) →
      (∀ x, cellOk a i x = true → x ∈ js ∨ cellRun a i x ≤ best.2.2) →
      best.1 = best.2.1 →
      (∀ i' x, i' < i → cellRun a i' x ≤ best.2.2) →
      (∀ x, new x = if x ∈ js then 0 else cellRun a i x) →
      (flmInner i j2 js best new).1.1 = (flmInner i j2 js best new).1.2.1 ∧
      (∀ i' x, i' < i → cellRun a i' x ≤ (flmInner i j2 js best new).1.2.2) ∧
      (∀ x, cellOk a i x = true → cellRun a i x ≤ (flmInner i j2 js best new).1.2.2) ∧
      (∀ x, (flmInner i j2 js best new).2 x = cellRun a i x) := by
  intro js
  induction js with
  | nil =>
    intro best new _ _ hcomp hdiag hrows hnew
    simp only [flmInner]
    refine ⟨hdiag, hrows, ?_, ?_⟩
    · intro x hok
      rcases hcomp x hok with h | h
      · simp at h
      · exact h
    · intro x
      rw [hnew x]
      simp
  | cons j js ih =>
    intro best new hpair hmem hcomp hdiag hrows hnew
    have hokj : cellOk a i j = true := hmem j (by simp)
    have hk : (if j = 0 then 0 else j2 (j - 1)) + 1 = cellRun a i j := by
      rw [hj2 (j - 1)]
      exact prevRow_step hokj
    have hjtail : ∀ x ∈ js, j < x := (List.pairwise_cons.mp hpair).1
    have hpair' : List.Pairwise (· < ·) js := (List.pairwise_cons.mp hpair).2
    have hmem' : ∀ u ∈ js, cellOk a i u = true := fun u hu => hmem u (by simp [hu])
    simp only [flmInner]
    rw [hk]
    by_cases hup : best.2.2 < cellRun a i j
    · have hji : j = i := by
        by_contra hne
        rcases Nat.lt_or_ge j i with hlt | hge
        · have h1 : cellRun a i j ≤ cellRun a j j := cellRun_le_diag_col a i j
          have h2 : cellRun a j j ≤ best.2.2 := hrows j j hlt
          omega
        · have hgt : i < j := by omega
          have hii : cellOk a i i = true := cellOk_diag_row hokj hi
          have hnotmem : i ∉ j :: js := by
            intro hmem''
            rcases List.mem_cons.mp hmem'' with h | h
            · omega
            · have := hjtail i h
              omega
          rcases hcomp i hii with h | h
          · exact hnotmem h
          · have := cellRun_le_diag_row a i j hi
            omega
      have hjnot : j ∉ js := fun h => absurd (hjtail j h) (lt_irrefl j)
      subst hji
      rw [if_pos hup]
      refine ih _ _ hpair' hmem' ?_ rfl ?_ (newFun_step (cellRun a j) new j js hnew hjnot)
      · intro x hok
        rcases hcomp x hok with h | h
        · rcases List.mem_cons.mp h with h | h
          · subst h
            exact Or.inr (le_refl _)
          · exact Or.inl h
        · exact Or.inr (by simp only; omega)
      · intro i' x hlt
        have := hrows i' x hlt
        simp only
        omega
    · have hjnot : j ∉ js := fun h => absurd (hjtail j h) (lt_irrefl j)
      rw [if_neg hup]
      refine ih _ _ hpair' hmem' ?_ hdiag hrows (newFun_step (cellRun a i) new j js hnew hjnot)
      intro x hok
      rcases hcomp x hok with h | h
      · rcases List.mem_cons.mp h with h | h
        · subst h
          exact Or.inr (by omega)
        · exact Or.inl h
      · exact Or.inr h

theorem selfRow_js (a : List Char) (i : Nat) :
    (b2j a (getC a i)).filter (fun j => 0 ≤ j && j < a.length) =
      (List.range a.length).filter (fun j => cellOk a i j) := by
  unfold b2j
  by_cases hp : isPopular a (getC a i) = true
  · rw [if_pos hp]
    rw [List.filter_nil]
    symm
    rw [List.filter_eq_nil_iff]
    intro j _
    simp [cellOk, hp]
  · rw [if_neg hp]
    rw [List.filter_filter]
    refine List.filter_congr ?_
    intro j hj
    have hjlen : j < a.length := List.mem_range.mp hj
    have hp' : isPopular a (getC a i) = false := by
      simpa using hp
    simp [cellOk, hjlen, hp']

theorem flmRow_diag (a : List Char) (m : Nat) (hm : m < a.length)
    (st : (Nat × Nat × Nat) × (Nat → Nat))
    (hdiag : st.1.1 = st.1.2.1)
    (hrows : ∀ i' x, i' < m → cellRun a i' x ≤ st.1.2.2)
    (hj2 : ∀ x, st.2 x = prevRowFun a m x) :
    (flmRow a a 0 a.length st m).1.1 = (flmRow a a 0 a.length st m).1.2.1 ∧
    (∀ i' x, i' < m + 1 → cellRun a i' x ≤ (flmRow a a 0 a.length st m).1.2.2) ∧
    (∀ x, (flmRow a a 0 a.length st m).2 x = prevRowFun a (m + 1) x) := by
  have hpair : ((List.range a.length).filter (fun j => cellOk a m j)).Pairwise (· < ·) :=
    (List.pairwise_lt_range a.length).sublist (List.filter_sublist _)
  have hmemOk : ∀ j ∈ (List.range a.length).filter (fun j => cellOk a m j),
      cellOk a m j = true := by
    intro j hj
    exact (List.mem_filter.mp hj).2
  have hcomp : ∀ x, cellOk a m x = true →
      x ∈ (List.range a.length).filter (fun j => cellOk a m j) ∨
        cellRun a m x ≤ st.1.2.2 := by
    intro x hok
    exact Or.inl (List.mem_filter.mpr ⟨List.mem_range.mpr (cellOk_elim hok).1, hok⟩)
  have hnew0 : ∀ x, (fun _ => 0) x =
      if x ∈ (List.range a.length).filter (fun j => cellOk a m j) then 0
      else cellRun a m x := by
    intro x
    by_cases hx : x ∈ (List.range a.length).filter (fun j => cellOk a m j)
    · rw [if_pos hx]
    · rw [if_neg hx]
      have : cellOk a m x = false := by
        cases hb : cellOk a m x with
        | false => rfl
        | true => exact absurd (List.mem_filter.mpr ⟨List.mem_range.mpr (cellOk_elim hb).1, hb⟩) hx
      exact (cellRun_eq_zero this).symm
  have hres := flmInner_diag a m hm st.2 hj2
    ((List.range a.length).filter (fun j => cellOk a m j)) st.1 (fun _ => 0)
    hpair hmemOk hcomp hdiag hrows hnew0
  unfold flmRow
  dsimp only
  rw [selfRow_js a m]
  refine ⟨hres.1, ?_, ?_⟩
  · intro i' x h
    rcases Nat.lt_or_ge i' m with h' | h'
    · exact hres.2.1 i' x h'
    · have him : i' = m := by omega
      subst him
      by_cases hok : cellOk a i' x = true
      · exact hres.2.2.1 x hok
      · have : cellOk a i' x = false := by
          cases hb : cellOk a i' x with
          | false => rfl
          | true => exact absurd hb hok
        rw [cellRun_eq_zero this]
        omega
  · intro x
    exact hres.2.2.2 x

theorem flmFold_diag (a : List Char) :
    ∀ (cnt m : Nat) (st : (Nat × Nat × Nat) × (Nat → Nat)),
      m + cnt ≤ a.length →
      st.1.1 = st.1.2.1 →
      (∀ i' x, i' < m → cellRun a i' x ≤ st.1.2.2) →
      (∀ x, st.2 x = prevRowFun a m x) →
      ((List.range' m cnt).foldl (flmRow a a 0 a.length) st).1.1 =
        ((List.range' m cnt).foldl (flmRow a a 0 a.length) st).1.2.1 := by
  intro cnt
  induction cnt with
  | zero =>
    intro m st _ hdiag _ _
    simpa using hdiag
  | succ n ih =>
    intro m st hlen hdiag hrows hj2
    rw [List.range'_succ]
    simp only [List.foldl_cons]
    have hstep := flmRow_diag a m (by omega) st hdiag hrows hj2
    exact ih (m + 1) _ (by omega) hstep.1 hstep.2.1 hstep.2.2

theorem flmDP_diag (a : List Char) :
    (flmDP a a 0 a.length 0 a.length).1 = (flmDP a a 0 a.length 0 a.length).2.1 := by
  unfold flmDP
  exact flmFold_diag a (a.length - 0) 0 ((0, 0, 0), fun _ => 0) (by omega) rfl
    (by intro i' x h; omega) (by intro x; rfl)

theorem extendLo_diag (a : List Char) :
    ∀ (fuel bi bs : Nat), bi ≤ fuel →
      extendLo a a 0 0 fuel (bi, bi, bs) = (0, 0, bs + bi) := by
  intro fuel
  induction fuel with
  | zero =>
    intro bi bs h
    have hbi0 : bi = 0 := by omega
    subst hbi0
    simp [extendLo]
  | succ n ih =>
    intro bi bs h
    rw [show extendLo a a 0 0 (n + 1) (bi, bi, bs) =
        (if 0 < bi ∧ 0 < bi ∧ getC a (bi - 1) = getC a (bi - 1) then
          extendLo a a 0 0 n (bi - 1, bi - 1, bs + 1)
        else (bi, bi, bs)) from rfl]
    by_cases hbi : 0 < bi
    · rw [if_pos ⟨hbi, hbi, rfl⟩, ih (bi - 1) (bs + 1) (by omega)]
      have heq : bs + 1 + (bi - 1) = bs + bi := by omega
      rw [heq]
    · have hbi0 : bi = 0 := by omega
      subst hbi0
      rw [if_neg (fun hc => absurd hc.1 (lt_irrefl 0))]
      simp

theorem extendHi_diag (a : List Char) (n : Nat) :
    ∀ (fuel s : Nat), s ≤ n → n - s ≤ fuel →
      extendHi a a n n fuel (0, 0, s) = (0, 0, n) := by
  intro fuel
  induction fuel with
  | zero =>
    intro s h1 h2
    have hsn : s = n := by omega
    rw [show extendHi a a n n 0 (0, 0, s) = (0, 0, s) from rfl, hsn]
  | succ m ih =>
    intro s h1 h2
    rw [show extendHi a a n n (m + 1) (0, 0, s) =
        (if 0 + s < n ∧ 0 + s < n ∧ getC a (0 + s) = getC a (0 + s) then
          extendHi a a n n m (0, 0, s + 1)
        else (0, 0, s)) from rfl]
    by_cases hs : s < n
    · rw [if_pos ⟨by omega, by omega, rfl⟩]
      exact ih (s + 1) (by omega) (by omega)
    · have hsn : s = n := by omega
      rw [if_neg (fun hc => absurd hc.1 (by omega)), hsn]

theorem flm_self (a : List Char) :
    find_longest_match a a 0 a.length 0 a.length = (0, 0, a.length) := by
  unfold find_longest_match
  have hdiag := flmDP_diag a
  have hb := flmDP_bounds a a 0 a.length 0 a.length (by omega) (by omega)
  rcases hdp : flmDP a a 0 a.length 0 a.length with ⟨bi, bj, bs⟩
  rw [hdp] at hdiag hb
  dsimp only at hdiag hb ⊢
  subst hdiag
  rw [extendLo_diag a bi bi bs (le_refl bi)]
  exact extendHi_diag a a.length a.length (bs + bi) (by omega) (by omega)

theorem extendLo_stall (a b : List Char) (alo blo : Nat) :
    ∀ (fuel bj bs : Nat), extendLo a b alo blo fuel (alo, bj, bs) = (alo, bj, bs)
  | 0, bj, bs => rfl
  | fuel + 1, bj, bs => by
    rw [show extendLo a b alo blo (fuel + 1) (alo, bj, bs) =
        (if alo < alo ∧ blo < bj ∧ getC a (alo - 1) = getC b (bj - 1) then
          extendLo a b alo blo fuel (alo - 1, bj - 1, bs + 1)
        else (alo, bj, bs)) from rfl]
    rw [if_neg (fun hc => absurd hc.1 (lt_irrefl alo))]

theorem extendHi_stall (a b : List Char) (ahi bhi fuel bi bj bs : Nat)
    (h : ahi ≤ bi + bs) : extendHi a b ahi bhi fuel (bi, bj, bs) = (bi, bj, bs) := by
  cases fuel with
  | zero => rfl
  | succ m =>
    rw [show extendHi a b ahi bhi (m + 1) (bi, bj, bs) =
        (if bi + bs < ahi ∧ bj + bs < bhi ∧ getC a (bi + bs) = getC b (bj + bs) then
          extendHi a b ahi bhi m (bi, bj, bs + 1)
        else (bi, bj, bs)) from rfl]
    rw [if_neg (fun hc => absurd hc.1 (by omega))]

theorem flm_empty (a b : List Char) (alo ahi blo bhi : Nat) (h : ahi ≤ alo) :
    find_longest_match a b alo ahi blo bhi = (alo, blo, 0) := by
  unfold find_longest_match
  have hdp : flmDP a b alo ahi blo bhi = (alo, blo, 0) := by
    unfold flmDP
    have hz : ahi - alo = 0 := by omega
    rw [hz]
    rfl
  rw [hdp]
  dsimp only
  rw [extendLo_stall a b alo blo alo blo 0]
  exact extendHi_stall a b ahi bhi ahi alo blo 0 (by omega)

theorem matchTotalF_empty (a b : List Char) :
    ∀ (fuel alo ahi blo bhi : Nat), ahi ≤ alo →
      matchTotalF a b fuel alo ahi blo bhi = 0 := by
  intro fuel
  cases fuel with
  | zero => intro alo ahi blo bhi _; rfl
  | succ n =>
    intro alo ahi blo bhi h
    simp only [matchTotalF, flm_empty a b alo ahi blo bhi h]
    simp

theorem matchTotal_self (a : List Char) : matchTotal a a = a.length := by
  unfold matchTotal
  rcases Nat.eq_zero_or_pos a.length with h0 | hpos
  · rw [matchTotalF_empty a a _ 0 a.length 0 a.length (by omega)]
    omega
  · simp only [matchTotalF, flm_self]
    have hne : ¬ ((0, 0, a.length) : Nat × Nat × Nat).2.2 = 0 := by
      simp
      exact List.length_pos.mp hpos
    rw [if_neg hne]
    rw [matchTotalF_empty a a _ 0 0 0 0 (le_refl 0)]
    rw [matchTotalF_empty a a _ (0 + a.length) a.length (0 + a.length) a.length (by omega)]
    omega

theorem smRatio_self (s : List Char) (h : s ≠ []) : smRatio s s = 1 := by
  unfold smRatio
  rw [matchTotal_self]
  have hn : 0 < s.length := List.length_pos.mpr h
  have hcast : (s.length : ℚ) ≠ 0 := Nat.cast_ne_zero.mpr (by omega)
  have heq : (s.length : ℚ) + s.length = 2 * s.length := by ring
  rw [heq]
  exact div_self (mul_ne_zero two_ne_zero hcast)

theorem roundHalfEven_bounds (q : ℚ) (h0 : 0 ≤ q) (hB : q ≤ 10000) :
    0 ≤ roundHalfEven q ∧ roundHalfEven q ≤ 10000 := by
  have hf0 : 0 ≤ ⌊q⌋ := Int.floor_nonneg.mpr h0
  have hfB : ⌊q⌋ ≤ 10000 := by
    have h := Int.floor_le_floor hB
    have h2 : ⌊(10000 : ℚ)⌋ = 10000 := by norm_num
    omega
  have hkey : ¬ (q - (⌊q⌋ : ℚ) < 1 / 2) → ⌊q⌋ + 1 ≤ 10000 := by
    intro hh
    have h2 : (1 : ℚ) / 2 ≤ q - ⌊q⌋ := not_lt.mp hh
    have h1 : (⌊q⌋ : ℚ) < q := by linarith
    have h3 : (⌊q⌋ : ℚ) < 10000 := lt_of_lt_of_le h1 hB
    have h4 : ⌊q⌋ < (10000 : ℤ) := by exact_mod_cast h3
    omega
  unfold roundHalfEven
  dsimp only
  split_ifs with c1 c2 c3
  · exact ⟨hf0, hfB⟩
  · exact ⟨by omega, hkey c1⟩
  · exact ⟨hf0, hfB⟩
  · exact ⟨by omega, hkey c1⟩

theorem round2_bounds (q : ℚ) (h0 : 0 ≤ q) (h100 : q ≤ 100) :
    0 ≤ round2 q ∧ round2 q ≤ 100 := by
  have h1 : 0 ≤ q * 100 := by linarith
  have h2 : q * 100 ≤ 10000 := by linarith
  obtain ⟨g1, g2⟩ := roundHalfEven_bounds (q * 100) h1 h2
  unfold round2
  constructor
  · apply div_nonneg _ (by norm_num : (0 : ℚ) ≤ 100)
    exact_mod_cast g1
  · rw [div_le_iff₀ (by norm_num : (0 : ℚ) < 100)]
    have h3 : ((roundHalfEven (q * 100) : ℚ)) ≤ 10000 := by exact_mod_cast g2
    linarith

theorem round2_100 : round2 100 = 100 := by
  norm_num [round2, roundHalfEven]

/-- Claim C6, counterexample: the strings `"."` and `"!"` have identical
(empty) normalized forms, yet `calculate_similarity` scores them `0.0`,
not `100.0`. -/
theorem C6_identical_empty_counterexample :
    normalize_text ('.' :: []) = normalize_text ('!' :: []) ∧
    calculate_similarity ('.' :: []) ('!' :: []) = 0 ∧
    calculate_similarity ('.' :: []) ('!' :: []) ≠ 100 := by
  decide

/-- Claim C6 as amended: every similarity score lies in `[0, 100]`, and
every pair of strings with identical *non-empty* normalized forms scores
`100.0` (identical empty normalizations fall into the empty guard and
score `0.0`). -/
theorem C6_similarity_range_amended (ref att : List Char) :
    0 ≤ calculate_similarity ref att ∧ calculate_similarity ref att ≤ 100 ∧
    (normalize_text ref = normalize_text att → normalize_text ref ≠ [] →
      calculate_similarity ref att = 100) := by
  by_cases he : normalize_text ref = [] ∨ normalize_text att = []
  · have h0 : calculate_similarity ref att = 0 := by
      simp only [calculate_similarity]
      rw [if_pos he]
    refine ⟨by rw [h0], by rw [h0]; norm_num, ?_⟩
    intro heq hne
    exfalso
    rcases he with h | h
    · exact hne h
    · exact hne (by rw [heq]; exact h)
  · push_neg at he
    obtain ⟨hr, ha⟩ := he
    have hcalc : calculate_similarity ref att =
        round2 (smRatio (normalize_text ref) (normalize_text att) * 100) := by
      simp only [calculate_similarity]
      rw [if_neg (by tauto)]
    set rn := normalize_text ref with hrn
    set an := normalize_text att with han
    have hlr : 0 < rn.length := List.length_pos.mpr hr
    have hla : 0 < an.length := List.length_pos.mpr ha
    have hM : matchTotal rn an ≤ min rn.length an.length := matchTotal_le rn an
    have hden : (0 : ℚ) < (rn.length : ℚ) + an.length := by
      have q1 : (0 : ℚ) < (rn.length : ℚ) := by exact_mod_cast hlr
      have q2 : (0 : ℚ) ≤ (an.length : ℚ) := by positivity
      linarith
    have hq0 : 0 ≤ smRatio rn an * 100 := by
      unfold smRatio
      have hnum : (0 : ℚ) ≤ 2 * (matchTotal rn an : ℚ) := by positivity
      have := div_nonneg hnum (le_of_lt hden)
      linarith
    have hq1 : smRatio rn an * 100 ≤ 100 := by
      unfold smRatio
      rw [div_mul_eq_mul_div, div_le_iff₀ hden]
      have h2M : (2 * (matchTotal rn an : ℚ)) ≤ (rn.length : ℚ) + an.length := by
        have hnat : 2 * matchTotal rn an ≤ rn.length + an.length := by omega
        exact_mod_cast hnat
      linarith
    obtain ⟨hb0, hb1⟩ := round2_bounds _ hq0 hq1
    refine ⟨by rw [hcalc]; exact hb0, by rw [hcalc]; exact hb1, ?_⟩
    intro heq hne
    rw [hcalc, ← heq, smRatio_self rn hne, one_mul]
    exact round2_100

/-- Witness for C6 as amended: the pair `("abc", "abc")` scores exactly
`100`, and the bounds hold there. -/
theorem C6_similarity_range_amended_witness :
    0 ≤ calculate_similarity ('a' :: 'b' :: 'c' :: []) ('a' :: 'b' :: 'c' :: []) ∧
    calculate_similarity ('a' :: 'b' :: 'c' :: []) ('a' :: 'b' :: 'c' :: []) ≤ 100 ∧
    calculate_similarity ('a' :: 'b' :: 'c' :: []) ('a' :: 'b' :: 'c' :: []) = 100 :=
  have h := C6_similarity_range_amended ('a' :: 'b' :: 'c' :: []) ('a' :: 'b' :: 'c' :: [])
  ⟨h.1, h.2.1, h.2.2 rfl (by decide)⟩

end Speech
